import Mathlib

/-!
Verification of the `bazuka` blockchain node's storage stack, sync-peer
selection, mempool admission, peer punishment, and key encoding, against a
shallow embedding of its Rust sources.

Conventions of the embedding:
 - byte vectors (`Vec<u8>`, `Blob`) are `List Nat`, each entry a byte value;
 - `HashMap<String, V>` is an association list `List (String × V)` with
   unique keys maintained by `alInsert` / `alRemove`, which mirror
   `HashMap::insert` and `HashMap::remove`;
 - `u32` / `u64` arithmetic is `Nat` arithmetic with an explicit `% 2^w`
   wherever the Rust code could wrap;
 - fallible Rust code (`Result`, panics) becomes `Except` / `Option`.
-/

namespace Bazuka

/-- A stored value: `Blob(pub Vec<u8>)` from `db/mod.rs`, as a byte list. -/
abbrev Blob := List Nat

/-- The `WriteOp` enum of `db/mod.rs`: `Remove(StringKey) | Put(StringKey, Blob)`.
String keys are plain Lean strings. -/
inductive WriteOp where
  | Remove (k : String)
  | Put (k : String) (b : Blob)
deriving DecidableEq, Repr

/-- The key targeted by a write operation (both variants carry one). -/
def WriteOp.key : WriteOp → String
  | .Remove k => k
  | .Put k _ => k

/-- The value a write operation installs: `some b` for `Put`, `none` (absence)
for `Remove`. -/
def WriteOp.written : WriteOp → Option Blob
  | .Remove _ => none
  | .Put _ b => some b

/-- Association-list lookup: first binding of the queried key, mirroring
`HashMap::get` on maps whose keys are unique. -/
def alLookup {κ α : Type} [DecidableEq κ] : List (κ × α) → κ → Option α
  | [], _ => none
  | (k, v) :: rest, q => if k = q then some v else alLookup rest q

/-- Association-list insert mirroring `HashMap::insert`: replace the binding
in place when the key is present, append otherwise. -/
def alInsert {κ α : Type} [DecidableEq κ] : List (κ × α) → κ → α → List (κ × α)
  | [], q, v => [(q, v)]
  | (k, w) :: rest, q, v =>
      if k = q then (q, v) :: rest else (k, w) :: alInsert rest q v

/-- Association-list removal mirroring `HashMap::remove` (drops every binding
of the key; on unique-key lists that is the one binding). -/
def alRemove {κ α : Type} [DecidableEq κ] : List (κ × α) → κ → List (κ × α)
  | [], _ => []
  | (k, w) :: rest, q =>
      if k = q then alRemove rest q else (k, w) :: alRemove rest q

theorem alLookup_alInsert {κ α : Type} [DecidableEq κ] (l : List (κ × α)) (q r : κ) (v : α) :
    alLookup (alInsert l q v) r = if q = r then some v else alLookup l r := by
  induction l with
  | nil =>
      by_cases h : q = r <;> simp [alInsert, alLookup, h]
  | cons p rest ih =>
      obtain ⟨k, w⟩ := p
      by_cases hk : k = q
      · subst hk
        by_cases h : k = r <;> simp [alInsert, alLookup, h]
      · by_cases h : k = r
        · subst h
          have hq : ¬ q = k := fun he => hk he.symm
          simp [alInsert, alLookup, hk, hq]
        · simp [alInsert, alLookup, hk, h, ih]

theorem alLookup_alRemove {κ α : Type} [DecidableEq κ] (l : List (κ × α)) (q r : κ) :
    alLookup (alRemove l q) r = if q = r then none else alLookup l r := by
  induction l with
  | nil =>
      by_cases h : q = r <;> simp [alRemove, alLookup, h]
  | cons p rest ih =>
      obtain ⟨k, w⟩ := p
      by_cases hk : k = q
      · subst hk
        have hstep : alRemove ((k, w) :: rest) k = alRemove rest k := by
          simp [alRemove]
        rw [hstep, ih]
        by_cases h : k = r
        · rw [if_pos h, if_pos h]
        · rw [if_neg h, if_neg h]
          simp [alLookup, h]
      · by_cases h : k = r
        · subst h
          have hq : ¬ q = k := fun he => hk he.symm
          simp [alRemove, alLookup, hk, hq]
        · simp [alRemove, alLookup, hk, h, ih]

/-- `RamKvStore(HashMap<String, Blob>)` from `db/ram.rs`. -/
structure RamKvStore where
  pairs : List (String × Blob)
deriving Repr

/-- `RamKvStore::new()`. -/
def RamKvStore.new : RamKvStore := ⟨[]⟩

/-- `RamKvStore::get`: `Ok(self.0.get(&k.0).cloned())` — infallible lookup. -/
def RamKvStore.get (s : RamKvStore) (k : String) : Option Blob :=
  alLookup s.pairs k

/-- Apply one `WriteOp` to the backing map, as in the loop body of
`RamKvStore::update`. -/
def RamKvStore.step (s : RamKvStore) (op : WriteOp) : RamKvStore :=
  match op with
  | .Remove k => ⟨alRemove s.pairs k⟩
  | .Put k v => ⟨alInsert s.pairs k v⟩

/-- `RamKvStore::update`: apply the operations in order (always `Ok`). -/
def RamKvStore.update (s : RamKvStore) (ops : List WriteOp) : RamKvStore :=
  ops.foldl RamKvStore.step s

/-- One entry synthesized by `rollback_of`: read the current value of the
op's target key, emit `Put(key, old)` when present, `Remove(key)` when
absent. -/
def rollbackEntry (s : RamKvStore) (op : WriteOp) : WriteOp :=
  match s.get op.key with
  | some b => WriteOp.Put op.key b
  | none => WriteOp.Remove op.key

/-- The default `KvStore::rollback_of` of `db/mod.rs`, instantiated at
`RamKvStore` (whose `get` cannot fail): one synthesized entry per op, in op
order. -/
def RamKvStore.rollback_of (s : RamKvStore) (ops : List WriteOp) : List WriteOp :=
  ops.map (rollbackEntry s)

@[simp]
theorem key_Put (k : String) (b : Blob) : (WriteOp.Put k b).key = k := rfl

@[simp]
theorem key_Remove (k : String) : (WriteOp.Remove k).key = k := rfl

@[simp]
theorem written_Put (k : String) (b : Blob) : (WriteOp.Put k b).written = some b := rfl

@[simp]
theorem written_Remove (k : String) : (WriteOp.Remove k).written = none := rfl

@[simp]
theorem rollbackEntry_key (s : RamKvStore) (op : WriteOp) :
    (rollbackEntry s op).key = op.key := by
  cases hv : s.get op.key <;> simp [rollbackEntry, hv]

@[simp]
theorem rollbackEntry_written (s : RamKvStore) (op : WriteOp) :
    (rollbackEntry s op).written = s.get op.key := by
  cases hv : s.get op.key <;> simp [rollbackEntry, hv]

/-- The last value written to key `k` by a list of operations, if any
operation targets `k` (`some (some b)` = final `Put`, `some none` = final
`Remove`, `none` = key untouched). -/
def lastWrite : List WriteOp → String → Option (Option Blob)
  | [], _ => none
  | op :: rest, k =>
      match lastWrite rest k with
      | some w => some w
      | none => if op.key = k then some op.written else none

theorem lastWrite_cons (op : WriteOp) (rest : List WriteOp) (k : String) :
    lastWrite (op :: rest) k =
      match lastWrite rest k with
      | some w => some w
      | none => if op.key = k then some op.written else none := rfl

theorem get_step (s : RamKvStore) (op : WriteOp) (k : String) :
    (s.step op).get k = if op.key = k then op.written else s.get k := by
  cases op with
  | Remove q =>
      simp [RamKvStore.step, RamKvStore.get, WriteOp.key, WriteOp.written,
        alLookup_alRemove]
  | Put q v =>
      simp [RamKvStore.step, RamKvStore.get, WriteOp.key, WriteOp.written,
        alLookup_alInsert]

theorem get_update (s : RamKvStore) (ops : List WriteOp) (k : String) :
    (s.update ops).get k = (lastWrite ops k).getD (s.get k) := by
  induction ops generalizing s with
  | nil => simp [RamKvStore.update, lastWrite]
  | cons op rest ih =>
      have hstep : RamKvStore.update s (op :: rest) = (s.step op).update rest := rfl
      rw [hstep, ih]
      cases hrest : lastWrite rest k with
      | some w => simp [lastWrite, hrest]
      | none =>
          by_cases h : op.key = k <;>
            simp [lastWrite, hrest, get_step, h]

theorem lastWrite_eq_none (ops : List WriteOp) (k : String)
    (h : k ∉ ops.map WriteOp.key) : lastWrite ops k = none := by
  induction ops with
  | nil => rfl
  | cons op rest ih =>
      simp only [List.map_cons, List.mem_cons] at h
      push_neg at h
      have hop : ¬ op.key = k := fun he => h.1 he.symm
      simp [lastWrite, ih h.2, hop]

theorem get_update_not_mem (s : RamKvStore) (ops : List WriteOp) (k : String)
    (h : k ∉ ops.map WriteOp.key) : (s.update ops).get k = s.get k := by
  rw [get_update, lastWrite_eq_none ops k h]
  rfl

theorem lastWrite_rollback (s : RamKvStore) (ops : List WriteOp) (k : String) :
    lastWrite (s.rollback_of ops) k =
      if k ∈ ops.map WriteOp.key then some (s.get k) else none := by
  induction ops with
  | nil => simp [RamKvStore.rollback_of, lastWrite]
  | cons op rest ih =>
      have hcons : s.rollback_of (op :: rest) =
          rollbackEntry s op :: s.rollback_of rest := rfl
      rw [hcons, lastWrite_cons]
      by_cases hmem : k ∈ rest.map WriteOp.key
      · rw [ih, if_pos hmem]
        simp [hmem]
      · rw [ih, if_neg hmem]
        by_cases hop : op.key = k
        · subst hop
          simp [hmem]
        · have hnc : ¬ k ∈ (op :: rest).map WriteOp.key := by
            simp only [List.map_cons, List.mem_cons]
            push_neg
            exact ⟨fun he => hop he.symm, hmem⟩
          rw [if_neg hnc]
          simp [hop]

/-- C1. Rollback round-trip for `RamKvStore`: with `inv = rollback_of(ops)`
computed on the pre-state, `update(ops)` followed by `update(inv)` restores,
for every key mentioned in `ops`, exactly the `get` result the key had before;
and `rollback_of` emits `Put(key, old)` for keys currently present and
`Remove(key)` for keys currently absent. -/
theorem rollback_of_roundtrip (s : RamKvStore) (ops : List WriteOp) (k : String)
    (hk : k ∈ ops.map WriteOp.key) :
    ((s.update ops).update (s.rollback_of ops)).get k = s.get k ∧
    s.rollback_of ops = ops.map (fun op =>
      match s.get op.key with
      | some b => WriteOp.Put op.key b
      | none => WriteOp.Remove op.key) := by
  refine ⟨?_, rfl⟩
  rw [get_update, lastWrite_rollback, if_pos hk]
  rfl

/-- Witness for `rollback_of_roundtrip` at a concrete store and batch. -/
theorem rollback_of_roundtrip_witness :
    "a" ∈ ([WriteOp.Put "a" [7], WriteOp.Remove "b"].map WriteOp.key) ∧
    RamKvStore.get
      (RamKvStore.update
        (RamKvStore.update (RamKvStore.mk [("a", [1]), ("c", [3])])
          [WriteOp.Put "a" [7], WriteOp.Remove "b"])
        (RamKvStore.rollback_of (RamKvStore.mk [("a", [1]), ("c", [3])])
          [WriteOp.Put "a" [7], WriteOp.Remove "b"])) "a" =
      RamKvStore.get (RamKvStore.mk [("a", [1]), ("c", [3])]) "a" := by
  refine ⟨by decide, ?_⟩
  exact (rollback_of_roundtrip (RamKvStore.mk [("a", [1]), ("c", [3])])
    [WriteOp.Put "a" [7], WriteOp.Remove "b"] "a" (by decide)).1

/-- `RamMirrorKvStore<'a, K>` of `db/mod.rs`: a write overlay
(`overwrite: HashMap<String, Option<Blob>>`, `some` = override value, `none`
= tombstone) over an immutably borrowed parent store. The borrowed parent is
kept as a field; mirror operations never modify it. -/
structure RamMirrorKvStore where
  store : RamKvStore
  overwrite : List (String × Option Blob)
deriving Repr

/-- `RamMirrorKvStore::new(store)`: empty overlay. -/
def RamMirrorKvStore.new (s : RamKvStore) : RamMirrorKvStore := ⟨s, []⟩

/-- `RamMirrorKvStore::get`: overlay first (`contains_key` then `get`),
parent second. -/
def RamMirrorKvStore.get (m : RamMirrorKvStore) (k : String) : Option Blob :=
  match alLookup m.overwrite k with
  | some w => w
  | none => m.store.get k

/-- One iteration of the loop in `RamMirrorKvStore::update`: record an
override (`Put` ↦ `some`, `Remove` ↦ tombstone `none`) in the overlay. -/
def RamMirrorKvStore.step (m : RamMirrorKvStore) (op : WriteOp) : RamMirrorKvStore :=
  match op with
  | .Remove k => { m with overwrite := alInsert m.overwrite k none }
  | .Put k v => { m with overwrite := alInsert m.overwrite k (some v) }

/-- `RamMirrorKvStore::update`: record every op in the overlay, touching
nothing else. -/
def RamMirrorKvStore.update (m : RamMirrorKvStore) (ops : List WriteOp) : RamMirrorKvStore :=
  ops.foldl RamMirrorKvStore.step m

/-- `RamMirrorKvStore::to_ops`: convert the overlay to one batch, `some b`
becoming `Put` and tombstones becoming `Remove`. -/
def RamMirrorKvStore.to_ops (m : RamMirrorKvStore) : List WriteOp :=
  m.overwrite.map (fun p =>
    match p.2 with
    | some b => WriteOp.Put p.1 b
    | none => WriteOp.Remove p.1)

theorem mirror_step_store (m : RamMirrorKvStore) (op : WriteOp) :
    (m.step op).store = m.store := by
  cases op <;> rfl

theorem mirror_update_store (m : RamMirrorKvStore) (ops : List WriteOp) :
    (m.update ops).store = m.store := by
  induction ops generalizing m with
  | nil => rfl
  | cons op rest ih =>
      have : RamMirrorKvStore.update m (op :: rest) = (m.step op).update rest := rfl
      rw [this, ih, mirror_step_store]

theorem mirror_get_step (m : RamMirrorKvStore) (op : WriteOp) (k : String) :
    (m.step op).get k = if op.key = k then op.written else m.get k := by
  cases op with
  | Remove q =>
      simp only [RamMirrorKvStore.step, RamMirrorKvStore.get, alLookup_alInsert,
        key_Remove, written_Remove]
      by_cases h : q = k <;> simp [h]
  | Put q v =>
      simp only [RamMirrorKvStore.step, RamMirrorKvStore.get, alLookup_alInsert,
        key_Put, written_Put]
      by_cases h : q = k <;> simp [h]

theorem mirror_direct_step (m : RamMirrorKvStore) (s : RamKvStore) (op : WriteOp)
    (h : ∀ k, m.get k = s.get k) : ∀ k, (m.step op).get k = (s.step op).get k := by
  intro k
  rw [mirror_get_step, get_step, h k]

theorem mirror_direct_update (m : RamMirrorKvStore) (s : RamKvStore)
    (ops : List WriteOp) (h : ∀ k, m.get k = s.get k) :
    ∀ k, (m.update ops).get k = (s.update ops).get k := by
  induction ops generalizing m s with
  | nil => exact h
  | cons op rest ih =>
      intro k
      have hm : RamMirrorKvStore.update m (op :: rest) = (m.step op).update rest := rfl
      have hs : RamKvStore.update s (op :: rest) = (s.step op).update rest := rfl
      rw [hm, hs]
      exact ih (m.step op) (s.step op) (mirror_direct_step m s op h) k

theorem mirror_direct_batches (batches : List (List WriteOp))
    (m : RamMirrorKvStore) (s : RamKvStore) (h : ∀ k, m.get k = s.get k) :
    ∀ k, (batches.foldl RamMirrorKvStore.update m).get k =
      (batches.foldl RamKvStore.update s).get k := by
  induction batches generalizing m s with
  | nil => exact h
  | cons ops rest ih =>
      exact ih (m.update ops) (s.update ops) (mirror_direct_update m s ops h)

theorem mirror_batches_store (batches : List (List WriteOp)) (m : RamMirrorKvStore) :
    (batches.foldl RamMirrorKvStore.update m).store = m.store := by
  induction batches generalizing m with
  | nil => rfl
  | cons ops rest ih =>
      have : List.foldl RamMirrorKvStore.update m (ops :: rest) =
        List.foldl RamMirrorKvStore.update (m.update ops) rest := rfl
      rw [this, ih, mirror_update_store]

theorem mem_keys_alInsert {κ α : Type} [DecidableEq κ] (l : List (κ × α)) (q r : κ) (v : α) :
    r ∈ (alInsert l q v).map Prod.fst ↔ r ∈ l.map Prod.fst ∨ r = q := by
  induction l with
  | nil => simp [alInsert]
  | cons p rest ih =>
      obtain ⟨k, w⟩ := p
      by_cases hk : k = q
      · subst hk
        simp [alInsert]
        tauto
      · simp [alInsert, hk, ih]
        tauto

theorem nodup_keys_alInsert {κ α : Type} [DecidableEq κ] (l : List (κ × α)) (q : κ) (v : α)
    (h : (l.map Prod.fst).Nodup) : ((alInsert l q v).map Prod.fst).Nodup := by
  induction l with
  | nil => simp [alInsert]
  | cons p rest ih =>
      obtain ⟨k, w⟩ := p
      simp only [List.map_cons, List.nodup_cons] at h
      by_cases hk : k = q
      · subst hk
        have hin : alInsert ((k, w) :: rest) k v = (k, v) :: rest := by
          simp [alInsert]
        rw [hin]
        simpa using h
      · simp only [alInsert, if_neg hk, List.map_cons, List.nodup_cons]
        refine ⟨?_, ih h.2⟩
        rw [mem_keys_alInsert]
        push_neg
        exact ⟨h.1, hk⟩

theorem mirror_step_nodup (m : RamMirrorKvStore) (op : WriteOp)
    (h : (m.overwrite.map Prod.fst).Nodup) :
    ((m.step op).overwrite.map Prod.fst).Nodup := by
  cases op <;> exact nodup_keys_alInsert _ _ _ h

theorem mirror_update_nodup (m : RamMirrorKvStore) (ops : List WriteOp)
    (h : (m.overwrite.map Prod.fst).Nodup) :
    ((m.update ops).overwrite.map Prod.fst).Nodup := by
  induction ops generalizing m with
  | nil => exact h
  | cons op rest ih =>
      exact ih (m.step op) (mirror_step_nodup m op h)

theorem mirror_batches_nodup (batches : List (List WriteOp)) (m : RamMirrorKvStore)
    (h : (m.overwrite.map Prod.fst).Nodup) :
    ((batches.foldl RamMirrorKvStore.update m).overwrite.map Prod.fst).Nodup := by
  induction batches generalizing m with
  | nil => exact h
  | cons ops rest ih =>
      exact ih (m.update ops) (mirror_update_nodup m ops h)

theorem toOps_keys (l : List (String × Option Blob)) :
    (l.map (fun p =>
      match p.2 with
      | some b => WriteOp.Put p.1 b
      | none => WriteOp.Remove p.1)).map WriteOp.key = l.map Prod.fst := by
  induction l with
  | nil => rfl
  | cons p rest ih =>
      obtain ⟨k, w⟩ := p
      cases w <;> simp [ih]

theorem lastWrite_toOps (l : List (String × Option Blob))
    (h : (l.map Prod.fst).Nodup) (k : String) :
    lastWrite (l.map (fun p =>
      match p.2 with
      | some b => WriteOp.Put p.1 b
      | none => WriteOp.Remove p.1)) k = alLookup l k := by
  induction l with
  | nil => rfl
  | cons p rest ih =>
      obtain ⟨q, w⟩ := p
      simp only [List.map_cons, List.nodup_cons] at h
      rw [List.map_cons, lastWrite_cons, ih h.2]
      by_cases hk : q = k
      · subst hk
        have hnone : alLookup rest q = none := by
          cases hl : alLookup rest q with
          | none => rfl
          | some v =>
              exfalso
              apply h.1
              clear h ih
              induction rest with
              | nil => simp [alLookup] at hl
              | cons p2 r2 ih2 =>
                  obtain ⟨k2, w2⟩ := p2
                  by_cases h2 : k2 = q
                  · subst h2
                    simp
                  · simp only [alLookup, if_neg h2] at hl
                    simp [ih2 hl]
        rw [hnone]
        cases w <;> simp [alLookup]
      · have hne : ¬ (q = k) := hk
        cases hl : alLookup rest k with
        | some v => simp [alLookup, hne, hl]
        | none =>
            cases w <;> simp [alLookup, hne, hl, fun he => hne he]

theorem parent_update_toOps (m : RamMirrorKvStore)
    (h : (m.overwrite.map Prod.fst).Nodup) (k : String) :
    (m.store.update m.to_ops).get k = m.get k := by
  rw [get_update, RamMirrorKvStore.to_ops, lastWrite_toOps m.overwrite h k]
  rw [RamMirrorKvStore.get]
  cases alLookup m.overwrite k <;> rfl

/-- C2. Mirror fidelity: building a `RamMirrorKvStore` over a parent,
feeding it any sequence of update batches, then applying `to_ops()` as a
single update on the parent, gives the parent the same `get` result for
every key as applying the batches directly; and the mirror's updates leave
the borrowed parent untouched. -/
theorem mirror_fidelity (parent : RamKvStore) (batches : List (List WriteOp))
    (k : String) :
    (parent.update
        (batches.foldl RamMirrorKvStore.update
          (RamMirrorKvStore.new parent)).to_ops).get k =
      (batches.foldl RamKvStore.update parent).get k ∧
    (batches.foldl RamMirrorKvStore.update (RamMirrorKvStore.new parent)).store
      = parent := by
  have hstore := mirror_batches_store batches (RamMirrorKvStore.new parent)
  refine ⟨?_, hstore⟩
  have hnodup := mirror_batches_nodup batches (RamMirrorKvStore.new parent)
    (by simp [RamMirrorKvStore.new])
  have hmain := parent_update_toOps
    (batches.foldl RamMirrorKvStore.update (RamMirrorKvStore.new parent)) hnodup k
  rw [hstore] at hmain
  exact Eq.trans hmain
    (mirror_direct_batches batches (RamMirrorKvStore.new parent) parent
      (fun _ => rfl) k)

/-- `LruCacheKvStore<K>` of `db/mod.rs`, instantiated at `RamKvStore`. The
`lru::LruCache<String, Option<Blob>>` is modelled as a recency list (most
recent first) bounded by `cap`: lookups move the hit entry to the front,
inserts go to the front and drop the least recent entry beyond capacity,
`pop` removes an entry. -/
structure LruCacheKvStore where
  store : RamKvStore
  cache : List (String × Option Blob)
  cap : Nat
deriving Repr

/-- `LruCacheKvStore::new(store, cap)`: empty cache. -/
def LruCacheKvStore.new (s : RamKvStore) (cap : Nat) : LruCacheKvStore :=
  ⟨s, [], cap⟩

/-- `LruCacheKvStore::get`: on a hit return the cached `Option<Blob>`
(promoting the entry); on a miss consult the underlying store and install
the result with `cache.put`. The interior mutation of the Rust code becomes
explicit state passing. -/
def LruCacheKvStore.get (st : LruCacheKvStore) (k : String) :
    Option Blob × LruCacheKvStore :=
  match alLookup st.cache k with
  | some v => (v, { st with cache := (k, v) :: alRemove st.cache k })
  | none =>
      let res := st.store.get k
      (res, { st with cache := ((k, res) :: alRemove st.cache k).take st.cap })

/-- `LruCacheKvStore::update`: `cache.pop` every mentioned key, then run the
underlying store's `update`. -/
def LruCacheKvStore.update (st : LruCacheKvStore) (ops : List WriteOp) :
    LruCacheKvStore :=
  { st with
    cache := ops.foldl (fun c op => alRemove c op.key) st.cache,
    store := st.store.update ops }

/-- One interleaved client action against a key-value store. -/
inductive DbAction where
  | get (k : String)
  | update (ops : List WriteOp)

/-- Run a sequence of actions against the cached store, collecting every
`get` result. -/
def runCached (st : LruCacheKvStore) : List DbAction → List (Option Blob) × LruCacheKvStore
  | [] => ([], st)
  | DbAction.get k :: rest =>
      let r := st.get k
      let t := runCached r.2 rest
      (r.1 :: t.1, t.2)
  | DbAction.update ops :: rest => runCached (st.update ops) rest

/-- Run the same actions against the bare store. -/
def runBare (s : RamKvStore) : List DbAction → List (Option Blob) × RamKvStore
  | [] => ([], s)
  | DbAction.get k :: rest =>
      let t := runBare s rest
      (s.get k :: t.1, t.2)
  | DbAction.update ops :: rest => runBare (s.update ops) rest

/-- Cache coherence invariant: every cached entry equals the underlying
store's current answer for its key. -/
def CacheOk (st : LruCacheKvStore) : Prop :=
  ∀ k v, alLookup st.cache k = some v → st.store.get k = v

theorem alLookup_take {κ α : Type} [DecidableEq κ] (l : List (κ × α)) (n : Nat) (k : κ)
    (v : α) (h : alLookup (l.take n) k = some v) : alLookup l k = some v := by
  induction l generalizing n with
  | nil => simp [alLookup] at h
  | cons p rest ih =>
      obtain ⟨q, w⟩ := p
      cases n with
      | zero => simp [alLookup] at h
      | succ n =>
          rw [List.take_succ_cons] at h
          by_cases hq : q = k
          · rw [alLookup, if_pos hq] at h ⊢
            exact h
          · rw [alLookup, if_neg hq] at h ⊢
            exact ih n h

theorem cacheOk_get (st : LruCacheKvStore) (k : String) (h : CacheOk st) :
    (st.get k).1 = st.store.get k ∧ CacheOk (st.get k).2 ∧
    (st.get k).2.store = st.store := by
  rw [LruCacheKvStore.get]
  cases hl : alLookup st.cache k with
  | some v =>
      refine ⟨(h k v hl).symm, ?_, rfl⟩
      intro r w hr
      by_cases hrk : k = r
      · subst hrk
        rw [alLookup, if_pos rfl] at hr
        cases hr
        exact h k v hl
      · rw [alLookup, if_neg hrk, alLookup_alRemove, if_neg hrk] at hr
        exact h r w hr
  | none =>
      refine ⟨rfl, ?_, rfl⟩
      intro r w hr
      simp only at hr
      have hr2 := alLookup_take _ _ _ _ hr
      by_cases hrk : k = r
      · subst hrk
        rw [alLookup, if_pos rfl] at hr2
        cases hr2
        rfl
      · rw [alLookup, if_neg hrk, alLookup_alRemove, if_neg hrk] at hr2
        exact h r w hr2

theorem alLookup_evict (ops : List WriteOp) (c : List (String × Option Blob))
    (k : String) :
    alLookup (ops.foldl (fun c op => alRemove c op.key) c) k =
      if k ∈ ops.map WriteOp.key then none else alLookup c k := by
  induction ops generalizing c with
  | nil => simp
  | cons op rest ih =>
      have hstep : List.foldl (fun c op => alRemove c op.key) c (op :: rest) =
        List.foldl (fun c op => alRemove c op.key) (alRemove c op.key) rest := rfl
      rw [hstep, ih, alLookup_alRemove]
      by_cases hmem : k ∈ rest.map WriteOp.key
      · simp [hmem]
      · by_cases hop : op.key = k
        · simp [hmem, hop]
        · have hnc : ¬ k ∈ (op :: rest).map WriteOp.key := by
            simp only [List.map_cons, List.mem_cons]
            push_neg
            exact ⟨fun he => hop he.symm, hmem⟩
          have hop2 : ¬ k = op.key := fun he => hop he.symm
          simp [hmem, hop2, hnc]
          exact fun he => absurd he hop

theorem cacheOk_update (st : LruCacheKvStore) (ops : List WriteOp)
    (h : CacheOk st) : CacheOk (st.update ops) ∧
    (st.update ops).store = st.store.update ops := by
  refine ⟨?_, rfl⟩
  intro r w hr
  rw [LruCacheKvStore.update] at hr
  simp only at hr
  rw [alLookup_evict] at hr
  by_cases hmem : r ∈ ops.map WriteOp.key
  · rw [if_pos hmem] at hr
    cases hr
  · rw [if_neg hmem] at hr
    have : (st.update ops).store = st.store.update ops := rfl
    rw [LruCacheKvStore.update]
    simp only
    rw [get_update_not_mem st.store ops r hmem]
    exact h r w hr

theorem runCached_runBare (acts : List DbAction) (st : LruCacheKvStore)
    (h : CacheOk st) :
    (runCached st acts).1 = (runBare st.store acts).1 ∧
    (runCached st acts).2.store = (runBare st.store acts).2 := by
  induction acts generalizing st with
  | nil => exact ⟨rfl, rfl⟩
  | cons a rest ih =>
      cases a with
      | get k =>
          obtain ⟨hres, hok, hst⟩ := cacheOk_get st k h
          have := ih (st.get k).2 hok
          rw [hst] at this
          rw [runCached, runBare]
          exact ⟨by rw [hres, this.1], this.2⟩
      | update ops =>
          obtain ⟨hok, hst⟩ := cacheOk_update st ops h
          have := ih (st.update ops) hok
          rw [hst] at this
          rw [runCached, runBare]
          exact this

/-- C3. LRU cache transparency: for any initial store, any capacity and any
sequence of interleaved `get`/`update` actions run sequentially, the
`LruCacheKvStore` returns the same result for every `get` as the bare store
and leaves the underlying store in the same final state. -/
theorem lru_cache_transparent (s : RamKvStore) (cap : Nat) (acts : List DbAction) :
    (runCached (LruCacheKvStore.new s cap) acts).1 = (runBare s acts).1 ∧
    (runCached (LruCacheKvStore.new s cap) acts).2.store = (runBare s acts).2 := by
  exact runCached_runBare acts (LruCacheKvStore.new s cap)
    (fun k v hv => by simp [LruCacheKvStore.new, alLookup] at hv)

/-- The `KeySpace` enum of `db/key_space.rs`. -/
inductive KeySpace where
  | META
  | HEADER
  | BODY
  | INDEX
deriving DecidableEq, Repr

/-- `impl From<KeySpace> for u8` of `db/key_space.rs`. -/
def KeySpace.toByte : KeySpace → Nat
  | .META => 0
  | .HEADER => 1
  | .BODY => 2
  | .INDEX => 3

/-- `<[u8]>::copy_from_slice`: copies `src` over `dst` when the lengths
match, panics (`none`) otherwise. -/
def copyFromSlice (dst src : List Nat) : Option (List Nat) :=
  if dst.length = src.length then some src else none

/-- The private `key_with_prefix` of `db/disk.rs`: allocate with capacity
`key.len() + 1` (length 0), push the space's prefix byte (length 1), then
`copy_from_slice(key)` on the length-1 vector — which panics unless the key
itself has length 1, and otherwise overwrites the prefix byte. `none` models
the panic. -/
def key_with_prefix (key : List Nat) (space : KeySpace) : Option (List Nat) :=
  let ret := ([] : List Nat) ++ [space.toByte]
  copyFromSlice ret key

/-- C9 (code bug). The claim — `key_with_prefix` returns, without panicking,
the one-byte space prefix followed by the key — is the documented intent
(spec §9 calls the source behaviour a misuse of `copy_from_slice`), but the
code panics on the two-byte key `[1, 2]` instead of returning `[0, 1, 2]`;
even on one-byte keys it returns the key with the prefix overwritten. -/
theorem key_with_prefix_diverges :
    key_with_prefix [1, 2] KeySpace.META = none ∧
    key_with_prefix [9] KeySpace.META = some [9] := by
  exact ⟨rfl, rfl⟩

/-- `number_key` of `db/mod.rs` at `u64` (where the `TryInto<u64>` conversion
is the identity and always succeeds): the eight bytes
`n >> 56, (n >> 48) & 0xff, …, n & 0xff`, most significant first. The `as u8`
casts truncate modulo 256. -/
def number_key (n : Nat) : List Nat :=
  [(n >>> 56) % 256,
   ((n >>> 48) &&& 0xff) % 256,
   ((n >>> 40) &&& 0xff) % 256,
   ((n >>> 32) &&& 0xff) % 256,
   ((n >>> 24) &&& 0xff) % 256,
   ((n >>> 16) &&& 0xff) % 256,
   ((n >>> 8) &&& 0xff) % 256,
   (n &&& 0xff) % 256]

/-- The big-endian base-256 digits of `n`, `k` bytes wide: byte `i` counted
from the least significant end is `(n >> 8i) mod 256`. -/
def beBytes (k n : Nat) : List Nat :=
  (List.range k).reverse.map (fun i => (n >>> (8 * i)) % 256)

/-- Strict lexicographic order on equal-length byte lists, as a Boolean. -/
def lexLt : List Nat → List Nat → Bool
  | [], [] => false
  | a :: as_, b :: bs => a < b || (a == b && lexLt as_ bs)
  | _, _ => false

theorem land_255_eq_mod (x : Nat) : x &&& 255 = x % 256 := by
  have h := Nat.and_pow_two_sub_one_eq_mod x 8
  norm_num at h
  exact h

theorem beBytes_succ (k n : Nat) :
    beBytes (k + 1) n = (n >>> (8 * k)) % 256 :: beBytes k n := by
  simp [beBytes, List.range_succ]

theorem byte_mod_high (n i k : Nat) (h : i < k) :
    ((n % 2 ^ (8 * k)) >>> (8 * i)) % 256 = (n >>> (8 * i)) % 256 := by
  rw [Nat.shiftRight_eq_div_pow, Nat.shiftRight_eq_div_pow]
  rw [Nat.div_mod_eq_mod_mul_div, Nat.div_mod_eq_mod_mul_div]
  have hdvd : (2 : Nat) ^ (8 * i) * 256 ∣ 2 ^ (8 * k) := by
    have : (2 : Nat) ^ (8 * i) * 256 = 2 ^ (8 * i + 8) := by
      rw [pow_add]
      norm_num
    rw [this]
    exact pow_dvd_pow 2 (by omega)
  rw [Nat.mod_mod_of_dvd n hdvd]

theorem beBytes_mod (k n : Nat) : beBytes k (n % 2 ^ (8 * k)) = beBytes k n := by
  unfold beBytes
  apply List.map_congr_left
  intro i hi
  rw [List.mem_reverse, List.mem_range] at hi
  exact byte_mod_high n i k hi

theorem number_key_eq_beBytes (n : Nat) : number_key n = beBytes 8 n := by
  have h7 : beBytes 8 n = (n >>> 56) % 256 :: beBytes 7 n := by
    have := beBytes_succ 7 n
    norm_num at this
    exact this
  have h6 : beBytes 7 n = (n >>> 48) % 256 :: beBytes 6 n := by
    have := beBytes_succ 6 n
    norm_num at this
    exact this
  have h5 : beBytes 6 n = (n >>> 40) % 256 :: beBytes 5 n := by
    have := beBytes_succ 5 n
    norm_num at this
    exact this
  have h4 : beBytes 5 n = (n >>> 32) % 256 :: beBytes 4 n := by
    have := beBytes_succ 4 n
    norm_num at this
    exact this
  have h3 : beBytes 4 n = (n >>> 24) % 256 :: beBytes 3 n := by
    have := beBytes_succ 3 n
    norm_num at this
    exact this
  have h2 : beBytes 3 n = (n >>> 16) % 256 :: beBytes 2 n := by
    have := beBytes_succ 2 n
    norm_num at this
    exact this
  have h1 : beBytes 2 n = (n >>> 8) % 256 :: beBytes 1 n := by
    have := beBytes_succ 1 n
    norm_num at this
    exact this
  have h0 : beBytes 1 n = [n % 256] := by
    simp [beBytes, List.range_succ]
  rw [h7, h6, h5, h4, h3, h2, h1, h0]
  simp [number_key, land_255_eq_mod]

theorem beBytes_lt (k n m : Nat) (hnm : n < m) (hm : m < 2 ^ (8 * k)) :
    lexLt (beBytes k n) (beBytes k m) = true := by
  induction k generalizing n m with
  | zero =>
      exfalso
      simp only [Nat.mul_zero, pow_zero] at hm
      omega
  | succ k ih =>
      rw [beBytes_succ, beBytes_succ, lexLt]
      have hdiv : n >>> (8 * k) ≤ m >>> (8 * k) := by
        rw [Nat.shiftRight_eq_div_pow, Nat.shiftRight_eq_div_pow]
        exact Nat.div_le_div_right (Nat.le_of_lt hnm)
      have hpowEq : (2 : Nat) ^ (8 * (k + 1)) = 2 ^ (8 * k) * 256 := by
        rw [show 8 * (k + 1) = 8 * k + 8 by ring, pow_add]
        norm_num
      have hmlt : m >>> (8 * k) < 256 := by
        rw [Nat.shiftRight_eq_div_pow]
        apply Nat.div_lt_of_lt_mul
        rw [← hpowEq]
        exact hm
      have hnlt : n >>> (8 * k) < 256 := Nat.lt_of_le_of_lt hdiv hmlt
      rw [Nat.mod_eq_of_lt hnlt, Nat.mod_eq_of_lt hmlt]
      rcases Nat.lt_or_ge (n >>> (8 * k)) (m >>> (8 * k)) with hlt | hge
      · simp [hlt]
      · have heq : n >>> (8 * k) = m >>> (8 * k) := Nat.le_antisymm hdiv hge
        rw [Nat.shiftRight_eq_div_pow, Nat.shiftRight_eq_div_pow] at heq
        have hn := Nat.div_add_mod n (2 ^ (8 * k))
        have hmEq := Nat.div_add_mod m (2 ^ (8 * k))
        rw [← heq] at hmEq
        have hmod : n % 2 ^ (8 * k) < m % 2 ^ (8 * k) := by omega
        have hmb : m % 2 ^ (8 * k) < 2 ^ (8 * k) :=
          Nat.mod_lt _ (Nat.pos_pow_of_pos _ (by norm_num))
        have htail := ih (n % 2 ^ (8 * k)) (m % 2 ^ (8 * k)) hmod hmb
        rw [beBytes_mod, beBytes_mod] at htail
        simp [heq, Nat.shiftRight_eq_div_pow, htail]

/-- C10. `number_key` on a `u64` value (where the conversion always
succeeds) is the 8-byte big-endian base-256 encoding, and it is strictly
monotone: `n < m` (both below `2^64`) gives lexicographically ordered
encodings, so byte-wise ordering of numbered keys coincides with numeric
ordering. -/
theorem number_key_bigendian_monotone (n m : Nat) (hn : n < 2 ^ 64)
    (hm : m < 2 ^ 64) (hnm : n < m) :
    number_key n = beBytes 8 n ∧ (number_key n).length = 8 ∧
    lexLt (number_key n) (number_key m) = true := by
  refine ⟨number_key_eq_beBytes n, rfl, ?_⟩
  rw [number_key_eq_beBytes, number_key_eq_beBytes]
  exact beBytes_lt 8 n m hnm (by norm_num at hm ⊢; omega)

/-- Witness for `number_key_bigendian_monotone` at `n = 3`, `m = 2^40`. -/
theorem number_key_monotone_witness :
    (3 < 2 ^ 64 ∧ 2 ^ 40 < 2 ^ 64 ∧ 3 < 2 ^ 40) ∧
    (number_key 3 = beBytes 8 3 ∧ (number_key 3).length = 8 ∧
      lexLt (number_key 3) (number_key (2 ^ 40)) = true) := by
  refine ⟨⟨by norm_num, by norm_num, by norm_num⟩, ?_⟩
  exact number_key_bigendian_monotone 3 (2 ^ 40) (by norm_num) (by norm_num)
    (by norm_num)

/-- `PeerAddress(pub IpAddr, pub u16)` of `node/mod.rs`; the IP is opaque. -/
structure PeerAddress where
  ip : Nat
  port : Nat
deriving DecidableEq, Repr

/-- `PeerInfo { height: usize, power: u64 }` of `node/mod.rs`. -/
structure PeerInfo where
  height : Nat
  power : Nat
deriving DecidableEq, Repr

/-- `Peer { address, punished_until: Timestamp (u32), info: Option<PeerInfo> }`
of `node/mod.rs`. -/
structure Peer where
  address : PeerAddress
  punished_until : Nat
  info : Option PeerInfo
deriving DecidableEq, Repr

/-- `Peer::is_punished`: `utils::local_timestamp() < self.punished_until`,
with the current local timestamp passed explicitly. -/
def Peer.is_punished (p : Peer) (now : Nat) : Bool :=
  now < p.punished_until

/-- `Peer::punish(secs)`:
`punished_until = min(max(punished_until, now) + secs, now + MAX_PUNISH)` in
`u32` arithmetic, so both sums wrap modulo `2^32`. The current timestamp
`now` and the configuration constant `MAX_PUNISH` (from `config::punish`,
not under `src/`) are passed explicitly. -/
def Peer.punish (p : Peer) (secs now maxPunish : Nat) : Peer :=
  { p with
    punished_until :=
      min ((max p.punished_until now + secs) % 4294967296)
        ((now + maxPunish) % 4294967296) }

/-- C8 counterexample. At `punished_until = 2^32 - 1`, `secs = 1`, `now = 0`,
`MAX_PUNISH = 600`, the `u32` addition wraps to `0`, so the stored value is
`0` while the claimed formula `min(max(punished_until, now) + secs,
now + MAX_PUNISH)` gives `600`. -/
theorem punish_wrap_counterexample :
    (Peer.punish ⟨⟨0, 0⟩, 4294967295, none⟩ 1 0 600).punished_until = 0 ∧
    min (max (4294967295 : Nat) 0 + 1) (0 + 600) = 600 := by
  exact ⟨rfl, by decide⟩

/-- C8 (amended). When neither `u32` sum overflows —
`max(punished_until, now) + secs < 2^32` and `now + MAX_PUNISH < 2^32` —
`punish` stores exactly `min(max(punished_until, now) + secs,
now + MAX_PUNISH)`; in particular the result never exceeds
`now + MAX_PUNISH`, so repeated punishments accumulate but are capped. -/
theorem punish_formula (p : Peer) (secs now maxPunish : Nat)
    (h1 : max p.punished_until now + secs < 4294967296)
    (h2 : now + maxPunish < 4294967296) :
    (p.punish secs now maxPunish).punished_until =
      min (max p.punished_until now + secs) (now + maxPunish) ∧
    (p.punish secs now maxPunish).punished_until ≤ now + maxPunish := by
  have hform : (p.punish secs now maxPunish).punished_until =
      min (max p.punished_until now + secs) (now + maxPunish) := by
    rw [Peer.punish]
    rw [Nat.mod_eq_of_lt h1, Nat.mod_eq_of_lt h2]
  exact ⟨hform, by rw [hform]; exact Nat.min_le_right _ _⟩

/-- Witness for `punish_formula` at a concrete peer. -/
theorem punish_formula_witness :
    (max (40 : Nat) 100 + 30 < 4294967296 ∧ (100 : Nat) + 600 < 4294967296) ∧
    ((Peer.punish ⟨⟨0, 0⟩, 40, none⟩ 30 100 600).punished_until =
      min (max 40 100 + 30) (100 + 600) ∧
    (Peer.punish ⟨⟨0, 0⟩, 40, none⟩ 30 100 600).punished_until ≤ 100 + 600) := by
  refine ⟨⟨by decide, by decide⟩, ?_⟩
  exact punish_formula ⟨⟨0, 0⟩, 40, none⟩ 30 100 600 (by decide) (by decide)

/-- Modelled from the spec (§7): the sync/transport error kinds of
`node/errors.rs`, which is not under `src/`. Network-level failures other
than the ones the sync driver matches on are folded into `NotAnswering`. -/
inductive NodeError where
  | NoPeers
  | NotListening
  | NotAnswering
  | PeerMisbehaved
deriving DecidableEq, Repr

/-- Outcome of one `sync_blocks` run: `Ok(())`, a propagated `NodeError`, or
a Rust panic (indexing an empty header vector). -/
inductive SyncOutcome where
  | ok
  | err (e : NodeError)
  | crash
deriving DecidableEq, Repr

/-- A network fetch issued by the sync driver through the outgoing sender. -/
inductive NetReq where
  | headers (addr : PeerAddress) (since : Nat) (upTo : Option Nat)
  | blocks (addr : PeerAddress) (since : Nat)
deriving DecidableEq, Repr

/-- Modelled from the spec (§4.5): the `Blockchain` trait interface consumed
by `sync_blocks` (`blockchain/mod.rs` is not under `src/`), over abstract
chain-state, header and block types: height/power queries, header reads,
the pure `will_extend` check and the reorganizing `extend`, plus the header
accessors `number` and `hash()` used by the sync driver. -/
structure ChainIntf (C H B : Type) where
  get_power : C → Except NodeError Nat
  get_height : C → Except NodeError Nat
  get_headers : C → Nat → Option Nat → Except NodeError (List H)
  will_extend : C → Nat → List H → Except NodeError Bool
  extend : C → Nat → List B → Except NodeError C
  hnumber : H → Nat
  hhash : H → Nat

/-- Modelled from the spec (§4.7): the `NodeContext` fields `sync_blocks`
can observe or mutate — blockchain, peer table and mempool (the mempool type
is abstract; sync never touches it). -/
structure NodeCtx (C M : Type) where
  blockchain : C
  peers : List Peer
  mempool : M
deriving Repr

/-- Modelled from the spec (§4.6): `NodeContext::active_peers`
(`node/context.rs` is not under `src/`) — the peers eligible for selection,
i.e. those not currently punished. -/
def active_peers (peers : List Peer) (now : Nat) : List Peer :=
  peers.filter (fun p => ! p.is_punished now)

/-- One fold step of `Iterator::max_by_key`: keep the accumulated maximum
only when it is strictly greater, so ties go to the later element. -/
def maxStep {α : Type} (key : α → Nat) (acc : Option α) (x : α) : Option α :=
  match acc with
  | none => some x
  | some m => if key x < key m then some m else some x

/-- `Iterator::max_by_key` as used in `sync_blocks`: of several equally
maximal elements, the last is returned. -/
def rustMaxByKey {α : Type} (key : α → Nat) (l : List α) : Option α :=
  l.foldl (maxStep key) none

/-- The selection key of `sync_blocks`:
`p.info.as_ref().map(|i| i.power).unwrap_or(0)`. -/
def peerKey (p : Peer) : Nat :=
  (p.info.map PeerInfo.power).getD 0

/-- Intermediate result of the common-ancestor walk. -/
inductive WalkRes (H : Type) where
  | done (headers : List H)
  | fail (o : SyncOutcome)

/-- The `for index in (0..start_height).rev()` loop of `sync_blocks`: fetch
the peer's header at each index, compare hashes with the local header,
prepend differing peer headers, stop at the first match. `idx` is one past
the next index to visit. Empty header responses make the Rust code panic on
`[0]`, modelled as `crash`. -/
def ancestorWalk {C H B : Type} (intf : ChainIntf C H B)
    (netH : PeerAddress → Nat → Option Nat → Except NodeError (List H))
    (addr : PeerAddress) (c : C) :
    Nat → List H → List NetReq → WalkRes H × List NetReq
  | 0, headers, reqs => (.done headers, reqs)
  | i + 1, headers, reqs =>
      let reqs2 := reqs ++ [NetReq.headers addr i (some (i + 1))]
      match netH addr i (some (i + 1)) with
      | .error e => (.fail (.err e), reqs2)
      | .ok hs =>
          match hs.head? with
          | none => (.fail .crash, reqs2)
          | some peer_header =>
              match intf.get_headers c i (some (i + 1)) with
              | .error e => (.fail (.err e), reqs2)
              | .ok lhs =>
                  match lhs.head? with
                  | none => (.fail .crash, reqs2)
                  | some local_header =>
                      if intf.hhash local_header ≠ intf.hhash peer_header then
                        ancestorWalk intf netH addr c i (peer_header :: headers) reqs2
                      else
                        (.done headers, reqs2)

/-- `sync_blocks` of `node/heartbeat/sync_blocks.rs`, with the network
modelled as oracles `netH`/`netB` and every issued fetch collected. Returns
the outcome, the fetches issued, and the resulting context. -/
def sync_blocks {C M H B : Type} (intf : ChainIntf C H B)
    (netH : PeerAddress → Nat → Option Nat → Except NodeError (List H))
    (netB : PeerAddress → Nat → Except NodeError (List B))
    (now : Nat) (ctx : NodeCtx C M) :
    SyncOutcome × List NetReq × NodeCtx C M :=
  match intf.get_power ctx.blockchain with
  | .error e => (.err e, [], ctx)
  | .ok power =>
  match intf.get_height ctx.blockchain with
  | .error e => (.err e, [], ctx)
  | .ok height =>
  match rustMaxByKey peerKey (active_peers ctx.peers now) with
  | none => (.err .NoPeers, [], ctx)
  | some most_powerful =>
  match most_powerful.info with
  | none => (.err .NoPeers, [], ctx)
  | some most_powerful_info =>
  if most_powerful_info.power ≤ power then (.ok, [], ctx)
  else
    let start_height := min height most_powerful_info.height
    let reqs0 := [NetReq.headers most_powerful.address start_height none]
    match netH most_powerful.address start_height none with
    | .error e => (.err e, reqs0, ctx)
    | .ok headers0 =>
        match ancestorWalk intf netH most_powerful.address ctx.blockchain
            start_height headers0 reqs0 with
        | (.fail o, reqs) => (o, reqs, ctx)
        | (.done headers, reqs) =>
            match headers.head? with
            | none => (.crash, reqs, ctx)
            | some h0 =>
                let we :=
                  match intf.will_extend ctx.blockchain (intf.hnumber h0) headers with
                  | .ok b => b
                  | .error _ => false
                if we then
                  let reqs2 := reqs ++ [NetReq.blocks most_powerful.address (intf.hnumber h0)]
                  match netB most_powerful.address (intf.hnumber h0) with
                  | .error e => (.err e, reqs2, ctx)
                  | .ok blocks =>
                      match intf.extend ctx.blockchain (intf.hnumber h0) blocks with
                      | .error e => (.err e, reqs2, ctx)
                      | .ok c2 => (.ok, reqs2, { ctx with blockchain := c2 })
                else (.ok, reqs, ctx)

theorem rustFold_spec {α : Type} (key : α → Nat) (l : List α) (m : α) :
    ∃ p, l.foldl (maxStep key) (some m) = some p ∧ (p = m ∨ p ∈ l) ∧
      key m ≤ key p ∧ ∀ q ∈ l, key q ≤ key p := by
  induction l generalizing m with
  | nil => exact ⟨m, rfl, .inl rfl, Nat.le_refl _, by simp⟩
  | cons x rest ih =>
      rw [List.foldl_cons, show maxStep key (some m) x =
        if key x < key m then some m else some x from rfl]
      by_cases hc : key x < key m
      · rw [if_pos hc]
        obtain ⟨p, hp, hmem, hle, hall⟩ := ih m
        refine ⟨p, hp, ?_, hle, ?_⟩
        · cases hmem with
          | inl h => exact .inl h
          | inr h => exact .inr (List.mem_cons_of_mem _ h)
        · intro q hq
          cases List.mem_cons.mp hq with
          | inl h => exact h ▸ Nat.le_trans (Nat.le_of_lt hc) hle
          | inr h => exact hall q h
      · rw [if_neg hc]
        obtain ⟨p, hp, hmem, hle, hall⟩ := ih x
        refine ⟨p, hp, ?_, Nat.le_trans (Nat.le_of_not_lt hc) hle, ?_⟩
        · cases hmem with
          | inl h => exact .inr (h ▸ List.mem_cons_self _ _)
          | inr h => exact .inr (List.mem_cons_of_mem _ h)
        · intro q hq
          cases List.mem_cons.mp hq with
          | inl h => exact h ▸ hle
          | inr h => exact hall q h

theorem rustMaxByKey_none_iff {α : Type} (key : α → Nat) (l : List α) :
    rustMaxByKey key l = none ↔ l = [] := by
  cases l with
  | nil => simp [rustMaxByKey]
  | cons x rest =>
      obtain ⟨p, hp, _, _, _⟩ := rustFold_spec key rest x
      rw [rustMaxByKey, List.foldl_cons,
        show maxStep key none x = some x from rfl, hp]
      simp

theorem rustMaxByKey_spec {α : Type} (key : α → Nat) (l : List α) (p : α)
    (h : rustMaxByKey key l = some p) : p ∈ l ∧ ∀ q ∈ l, key q ≤ key p := by
  cases l with
  | nil => simp [rustMaxByKey] at h
  | cons x rest =>
      obtain ⟨p2, hp2, hmem, hle, hall⟩ := rustFold_spec key rest x
      rw [rustMaxByKey, List.foldl_cons,
        show maxStep key none x = some x from rfl, hp2] at h
      injection h with h
      subst h
      refine ⟨?_, ?_⟩
      · cases hmem with
        | inl hh => exact hh ▸ List.mem_cons_self _ _
        | inr hh => exact List.mem_cons_of_mem _ hh
      · intro q hq
        cases List.mem_cons.mp hq with
        | inl hh => exact hh ▸ hle
        | inr hh => exact hall q hh

/-- C6. When the selected most powerful peer reports power at most the local
accumulated power, `sync_blocks` returns `Ok` without issuing any network
fetch and with the node context (blockchain, peers, mempool) exactly as at
entry. -/
theorem sync_lower_power_noop {C M H B : Type} (intf : ChainIntf C H B)
    (netH : PeerAddress → Nat → Option Nat → Except NodeError (List H))
    (netB : PeerAddress → Nat → Except NodeError (List B))
    (now : Nat) (ctx : NodeCtx C M) (power height : Nat) (p : Peer)
    (i : PeerInfo)
    (hp : intf.get_power ctx.blockchain = .ok power)
    (hh : intf.get_height ctx.blockchain = .ok height)
    (hsel : rustMaxByKey peerKey (active_peers ctx.peers now) = some p)
    (hinfo : p.info = some i)
    (hle : i.power ≤ power) :
    sync_blocks intf netH netB now ctx = (.ok, [], ctx) := by
  rw [sync_blocks, hp, hh, hsel]
  simp [hinfo, hle]

/-- Test chain interface for the concrete sync scenarios: constant local
power 50 and height 5; header/block fetches and hashes are irrelevant to the
exercised paths. -/
def syncIntf : ChainIntf Nat Nat Nat where
  get_power := fun _ => .ok 50
  get_height := fun _ => .ok 5
  get_headers := fun _ _ _ => .ok []
  will_extend := fun _ _ _ => .ok false
  extend := fun c _ _ => .ok c
  hnumber := fun n => n
  hhash := fun n => n

/-- Network oracle that never answers, for scenarios that must not fetch. -/
def syncNetH : PeerAddress → Nat → Option Nat → Except NodeError (List Nat) :=
  fun _ _ _ => .error .NotAnswering

/-- Block oracle that never answers. -/
def syncNetB : PeerAddress → Nat → Except NodeError (List Nat) :=
  fun _ _ => .error .NotAnswering

/-- An unpunished peer reporting power 40 (below the local 50). -/
def peerLow : Peer := ⟨⟨1, 80⟩, 0, some ⟨7, 40⟩⟩

/-- Witness for `sync_lower_power_noop`: peer power 40 against local power
50 leaves the context untouched and issues no fetch. -/
theorem sync_lower_power_noop_witness :
    (syncIntf.get_power (0 : Nat) = .ok 50 ∧
     syncIntf.get_height (0 : Nat) = .ok 5 ∧
     rustMaxByKey peerKey (active_peers [peerLow] 100) = some peerLow ∧
     peerLow.info = some ⟨7, 40⟩ ∧ (40 : Nat) ≤ 50) ∧
    sync_blocks syncIntf syncNetH syncNetB 100
        (NodeCtx.mk (0 : Nat) [peerLow] ()) =
      (.ok, [], NodeCtx.mk (0 : Nat) [peerLow] ()) := by
  refine ⟨⟨rfl, rfl, by decide, rfl, by decide⟩, ?_⟩
  exact sync_lower_power_noop syncIntf syncNetH syncNetB 100
    (NodeCtx.mk 0 [peerLow] ()) 50 5 peerLow ⟨7, 40⟩ rfl rfl (by decide) rfl
    (by decide)

/-- An unpunished peer reporting power 0. -/
def peerZero : Peer := ⟨⟨1, 1⟩, 0, some ⟨3, 0⟩⟩

/-- An unpunished peer whose info has never been fetched. -/
def peerNoInfo : Peer := ⟨⟨2, 2⟩, 0, none⟩

/-- C5 counterexample. With active peers `[peerZero, peerNoInfo]` (the first
has info with power 0, the second no info), `max_by_key` keys both at 0 and
returns the last, the info-less peer, so `sync_blocks` fails with `NoPeers`
even though a non-punished active peer with info present exists — contrary
to the claim that such a peer is never selected and that `NoPeers` occurs
only when no active peer with info exists. -/
theorem sync_selection_counterexample :
    sync_blocks syncIntf syncNetH syncNetB 100
        (NodeCtx.mk (0 : Nat) [peerZero, peerNoInfo] ()) =
      (.err .NoPeers, [], NodeCtx.mk (0 : Nat) [peerZero, peerNoInfo] ()) ∧
    peerZero ∈ active_peers [peerZero, peerNoInfo] 100 ∧
    peerZero.info.isSome = true := by
  exact ⟨rfl, by decide, rfl⟩

/-- C5 (amended). `sync_blocks` selects, among active (non-punished) peers
keyed by reported power with absent info counting as 0, the last peer
attaining the maximal key: the selection is empty iff there is no active
peer; a selected peer is active and maximal; a peer without info can only be
selected when no active peer reports positive power; and when the selection
is empty or the selected peer lacks info, `sync_blocks` fails with `NoPeers`
leaving the context untouched. -/
theorem sync_peer_selection (peers : List Peer) (now : Nat) :
    (rustMaxByKey peerKey (active_peers peers now) = none ↔
      active_peers peers now = []) ∧
    (∀ p, rustMaxByKey peerKey (active_peers peers now) = some p →
      p ∈ active_peers peers now ∧
      (∀ q ∈ active_peers peers now, peerKey q ≤ peerKey p) ∧
      ((∃ q ∈ active_peers peers now, ∃ i, q.info = some i ∧ 0 < i.power) →
        p.info.isSome)) ∧
    (∀ (C M H B : Type) (intf : ChainIntf C H B)
      (netH : PeerAddress → Nat → Option Nat → Except NodeError (List H))
      (netB : PeerAddress → Nat → Except NodeError (List B))
      (ctx : NodeCtx C M) (power height : Nat) (p : Peer),
      intf.get_power ctx.blockchain = .ok power →
      intf.get_height ctx.blockchain = .ok height →
      ctx.peers = peers →
      rustMaxByKey peerKey (active_peers peers now) = some p →
      p.info = none →
      sync_blocks intf netH netB now ctx = (.err .NoPeers, [], ctx)) := by
  refine ⟨rustMaxByKey_none_iff _ _, ?_, ?_⟩
  · intro p hsel
    obtain ⟨hmem, hmax⟩ := rustMaxByKey_spec peerKey _ p hsel
    refine ⟨hmem, hmax, ?_⟩
    rintro ⟨q, hq, i, hqi, hpow⟩
    cases hpinfo : p.info with
    | some _ => rfl
    | none =>
        exfalso
        have hqk : peerKey q = i.power := by simp [peerKey, hqi]
        have hpk : peerKey p = 0 := by simp [peerKey, hpinfo]
        have := hmax q hq
        omega
  · intro C M H B intf netH netB ctx power height p hp hh hpeers hsel hinfo
    rw [sync_blocks, hp, hh, hpeers, hsel]
    simp [hinfo]

/-- Witness instantiating `sync_peer_selection` at the two-peer scenario. -/
theorem sync_peer_selection_witness :
    (rustMaxByKey peerKey (active_peers [peerZero, peerNoInfo] 100) = none ↔
      active_peers [peerZero, peerNoInfo] 100 = []) ∧
    (∀ p, rustMaxByKey peerKey (active_peers [peerZero, peerNoInfo] 100) = some p →
      p ∈ active_peers [peerZero, peerNoInfo] 100 ∧
      (∀ q ∈ active_peers [peerZero, peerNoInfo] 100, peerKey q ≤ peerKey p) ∧
      ((∃ q ∈ active_peers [peerZero, peerNoInfo] 100,
          ∃ i, q.info = some i ∧ 0 < i.power) → p.info.isSome)) ∧
    (∀ (C M H B : Type) (intf : ChainIntf C H B)
      (netH : PeerAddress → Nat → Option Nat → Except NodeError (List H))
      (netB : PeerAddress → Nat → Except NodeError (List B))
      (ctx : NodeCtx C M) (power height : Nat) (p : Peer),
      intf.get_power ctx.blockchain = .ok power →
      intf.get_height ctx.blockchain = .ok height →
      ctx.peers = [peerZero, peerNoInfo] →
      rustMaxByKey peerKey (active_peers [peerZero, peerNoInfo] 100) = some p →
      p.info = none →
      sync_blocks intf netH netB 100 ctx = (.err .NoPeers, [], ctx)) :=
  sync_peer_selection [peerZero, peerNoInfo] 100

/-- Modelled from the spec (§3): `Account { balance: Money, nonce: u64 }`
(`core/account.rs` is not under `src/`). -/
structure Account where
  balance : Nat
  nonce : Nat
deriving DecidableEq, Repr

/-- Modelled from the spec (§3): the transaction fields `transact` touches —
the sender address (`core/transaction.rs` is not under `src/`); the rest of
the transaction is opaque (`body`), and signature verification is supplied
as an oracle. -/
structure Transaction where
  src : Nat
  body : Nat
deriving DecidableEq, Repr

/-- `TransactionStats { first_seen: Timestamp }` of `node/context.rs`. -/
structure TransactionStats where
  first_seen : Nat
deriving DecidableEq, Repr

/-- `TransactRequest { tx }` of `node/api/messages.rs`. -/
structure TransactRequest where
  tx : Transaction
deriving DecidableEq, Repr

/-- `TransactResponse {}` of `node/api/messages.rs`: the empty response. -/
structure TransactResponse where
deriving DecidableEq, Repr

/-- The mempool: `HashMap<Transaction, TransactionStats>` as an association
list with unique keys. -/
abbrev Mempool := List (Transaction × TransactionStats)

/-- `api::transact` of `node/api/transact.rs`: read the sender's account,
and insert the transaction into the mempool (stamped `first_seen = now`)
exactly when `balance > 0 && verify_signature()`; always answer
`TransactResponse {}`. `get_account` (a `Blockchain` method not under
`src/`) and `verify` (`Transaction::verify_signature`, core crypto out of
scope) are oracles; `now` is `context.network_timestamp()`. -/
def transact (get_account : Nat → Except NodeError Account)
    (verify : Transaction → Bool) (now : Nat) (mempool : Mempool)
    (req : TransactRequest) :
    Except NodeError (Mempool × TransactResponse) :=
  match get_account req.tx.src with
  | .error e => .error e
  | .ok account =>
      if 0 < account.balance ∧ verify req.tx then
        .ok (alInsert mempool req.tx ⟨now⟩, ⟨⟩)
      else
        .ok (mempool, ⟨⟩)

/-- C7. `transact` inserts the submitted transaction into the mempool iff
the signature verifies and the sender's balance is strictly positive, and
answers the empty `TransactResponse {}` in either case (given the account
read succeeds); with zero balance or a bad signature the mempool is exactly
unchanged, and on insertion the transaction is present with the current
timestamp. -/
theorem transact_admission (get_account : Nat → Except NodeError Account)
    (verify : Transaction → Bool) (now : Nat) (mempool : Mempool)
    (req : TransactRequest) (account : Account)
    (hacc : get_account req.tx.src = .ok account) :
    (0 < account.balance ∧ verify req.tx →
      transact get_account verify now mempool req =
        .ok (alInsert mempool req.tx ⟨now⟩, ⟨⟩) ∧
      alLookup (alInsert mempool req.tx ⟨now⟩) req.tx = some ⟨now⟩) ∧
    (¬ (0 < account.balance ∧ verify req.tx) →
      transact get_account verify now mempool req = .ok (mempool, ⟨⟩)) := by
  constructor
  · intro hcond
    refine ⟨?_, ?_⟩
    · rw [transact, hacc]
      simp [hcond]
    · rw [alLookup_alInsert]
      simp
  · intro hcond
    rw [transact, hacc]
    simp only [if_neg hcond]

/-- Witness for `transact_admission`: a sender with zero balance gets the
empty response while the mempool stays unchanged. -/
theorem transact_admission_witness :
    ((fun _ => Except.ok (Account.mk 0 0) : Nat → Except NodeError Account) 7 =
      .ok (Account.mk 0 0)) ∧
    (0 < (Account.mk 0 0).balance ∧ (fun _ => true) (Transaction.mk 7 1) →
      transact (fun _ => .ok (Account.mk 0 0)) (fun _ => true) 5 []
          (TransactRequest.mk (Transaction.mk 7 1)) =
        .ok (alInsert [] (Transaction.mk 7 1) (TransactionStats.mk 5),
          TransactResponse.mk) ∧
      alLookup (alInsert [] (Transaction.mk 7 1) (TransactionStats.mk 5))
        (Transaction.mk 7 1) = some (TransactionStats.mk 5)) ∧
    (¬ (0 < (Account.mk 0 0).balance ∧ (fun _ => true) (Transaction.mk 7 1)) →
      transact (fun _ => .ok (Account.mk 0 0)) (fun _ => true) 5 []
          (TransactRequest.mk (Transaction.mk 7 1)) =
        .ok ([], TransactResponse.mk)) := by
  refine ⟨rfl, ?_⟩
  exact transact_admission (fun _ => .ok (Account.mk 0 0)) (fun _ => true) 5 []
    (TransactRequest.mk (Transaction.mk 7 1)) (Account.mk 0 0) rfl

/-- Modelled from the spec (§3): the recursive zero-knowledge state model
(`zk` module not under `src/`); the claims only exercise `Scalar` and
`Struct`. -/
inductive ZkStateModel where
  | Scalar
  | Struct (field_types : List ZkStateModel)

/-- Modelled from the spec (§3/§4.5): `ZkContract` with its state model, the
declared initial compressed state (an opaque commitment, here a `Nat`), and
opaque function lists. -/
structure ZkContract where
  state_model : ZkStateModel
  initial_state : Nat
  deposit_functions : List Nat
  withdraw_functions : List Nat
  functions : List Nat

/-- `ContractAccount { compressed_state, height }` (spec §3). -/
structure ContractAccount where
  compressed_state : Nat
  height : Nat

/-- Modelled from the spec: `zk::ZkDataPairs` — the initial data pairs of a
contract state, with `as_delta` the identity embedding into a delta. -/
abbrev ZkDataPairs := List (Nat × Nat)

/-- `ZkDataPairs::as_delta` in the model: the pairs themselves. -/
def as_delta (d : ZkDataPairs) : ZkDataPairs := d

/-- Modelled from the spec (glossary `Compressed state`): the opaque
commitment to a contract state obtained from a data-pair delta — an
injective-enough executable fold; its only relevant property is being a
deterministic function of the applied delta. -/
def compress (m : ZkStateModel) (pairs : ZkDataPairs) : Nat :=
  match m with
  | _ => pairs.foldl (fun a p => Nat.pair (Nat.pair a p.1) p.2 + 1) 0

/-- Modelled from the spec (§7): the chain-engine error kinds. -/
inductive BlockchainError where
  | InvalidTx
  | InvalidBlock
  | InvalidStateModel
  | InvalidState
  | StateNotGiven
  | EmptyChain
  | InvalidChain
  | KvStoreFailure
deriving DecidableEq, Repr

/-- A chain-level stored value; stands for the bincode `Blob` of the
corresponding Rust value (the encodings are injective, so a tagged value is
a faithful stand-in). -/
inductive ChainVal where
  | contract (c : ZkContract)
  | account (a : ContractAccount)
  | num (n : Nat)
  | root (r : Nat)

/-- A write operation of the chain database, over tagged values. -/
inductive CWriteOp where
  | Remove (k : String)
  | Put (k : String) (v : ChainVal)

/-- The key targeted by a chain write operation. -/
def CWriteOp.key : CWriteOp → String
  | .Remove k => k
  | .Put k _ => k

/-- The RAM mirror the chain engine runs `create_contract` in during
isolated execution, over tagged chain values (same shape as
`RamMirrorKvStore`). -/
structure CMirror where
  parent : List (String × ChainVal)
  overwrite : List (String × Option ChainVal)

/-- Overlay-first read. -/
def CMirror.get (m : CMirror) (k : String) : Option ChainVal :=
  match alLookup m.overwrite k with
  | some w => w
  | none => alLookup m.parent k

/-- Record one write in the overlay. -/
def CMirror.step (m : CMirror) (op : CWriteOp) : CMirror :=
  match op with
  | .Put k v => { m with overwrite := alInsert m.overwrite k (some v) }
  | .Remove k => { m with overwrite := alInsert m.overwrite k none }

/-- `update` on the mirror: record the ops, touching nothing else. -/
def CMirror.update (m : CMirror) (ops : List CWriteOp) : CMirror :=
  ops.foldl CMirror.step m

/-- `to_ops`: the overlay as one batch. -/
def CMirror.to_ops (m : CMirror) : List CWriteOp :=
  m.overwrite.map (fun p =>
    match p.2 with
    | some v => CWriteOp.Put p.1 v
    | none => CWriteOp.Remove p.1)

/-- Modelled from the spec (§3 key table): `keys::contract` — `CON-<id>`
(`blockchain/keys.rs` is not under `src/`; the shapes follow the literal
keys of `test_create_contract`). -/
def keys_contract (id : String) : String := "CON-" ++ id

/-- Modelled from the spec (§3 key table): `keys::contract_account` —
`CAC-<id>`. -/
def keys_contract_account (id : String) : String := "CAC-" ++ id

/-- Modelled from the spec (§3 key table): the state manager's contract
height key `S-<id>-HGT`. -/
def keys_state_height (id : String) : String := "S-" ++ id ++ "-HGT"

/-- Modelled from the spec (§3 key table): the state manager's contract
root key `S-<id>-RT`. -/
def keys_state_root (id : String) : String := "S-" ++ id ++ "-RT"

/-- Modelled from the spec (§4.5, and the writes expected by
`test_create_contract`): `zk::KvStoreStateManager::update_contract` installs
a delta for a (freshly created) contract — it reads the contract definition,
records the contract-local `height` under `S-<id>-HGT` and the root of the
applied delta under `S-<id>-RT`. -/
def state_manager_update (db : CMirror) (id : String) (delta : ZkDataPairs)
    (height : Nat) : Except BlockchainError CMirror :=
  match db.get (keys_contract id) with
  | some (ChainVal.contract c) =>
      .ok (db.update
        [CWriteOp.Put (keys_state_height id) (.num height),
         CWriteOp.Put (keys_state_root id) (.root (compress c.state_model delta))])
  | _ => .error .KvStoreFailure

/-- Modelled from the spec (§4.5): `zk::KvStoreStateManager::root` — the
committed root, read back from `S-<id>-RT`. -/
def state_manager_root (db : CMirror) (id : String) : Except BlockchainError Nat :=
  match db.get (keys_state_root id) with
  | some (ChainVal.root r) => .ok r
  | _ => .error .KvStoreFailure

/-- `create_contract` of `blockchain/ops/apply_tx/create_contract.rs`:
require a valid state model; store `CON-<id>` then `CAC-<id>` (height 1,
`compressed_state` = declared initial state); require an initial state
(`StateNotGiven`); install the initial delta through the state manager; fail
with `InvalidState` when the computed root differs from the declared initial
state. `is_valid` is an oracle (its definition lives in the `zk` module,
outside `src/`). -/
def create_contract (isValid : ZkStateModel → Bool) (db : CMirror)
    (contract_id : String) (contract : ZkContract)
    (state : Option ZkDataPairs) : Except BlockchainError CMirror :=
  if ! isValid contract.state_model then .error .InvalidStateModel
  else
    let db1 := db.update
      [CWriteOp.Put (keys_contract contract_id) (.contract contract)]
    let db2 := db1.update
      [CWriteOp.Put (keys_contract_account contract_id)
        (.account (ContractAccount.mk contract.initial_state 1))]
    match state with
    | none => .error .StateNotGiven
    | some pairs =>
        match state_manager_update db2 contract_id (as_delta pairs) 1 with
        | .error e => .error e
        | .ok db3 =>
            match state_manager_root db3 contract_id with
            | .error e => .error e
            | .ok r =>
                if r ≠ contract.initial_state then .error .InvalidState
                else .ok db3

/-- Modelled from the spec (§4.5 / glossary `Isolated execution`):
`KvStoreChain::isolated` runs an operation against a fresh RAM mirror of the
chain database and returns the resulting batch together with the result. -/
def isolated (parent : List (String × ChainVal))
    (f : CMirror → Except BlockchainError CMirror) :
    Except BlockchainError (List CWriteOp × CMirror) :=
  match f (CMirror.mk parent []) with
  | .error e => .error e
  | .ok m => .ok (m.to_ops, m)

/-- Byte-wise (character-wise) lexicographic `≤` on key strings, as a
computable comparator. -/
def strLeAux : List Char → List Char → Bool
  | [], _ => true
  | _ :: _, [] => false
  | a :: as_, b :: bs =>
      if a < b then true else if b < a then false else strLeAux as_ bs

/-- Key comparator for sorting write batches. -/
def strLe (a b : String) : Bool := strLeAux a.data b.data

/-- Insert one op into a key-sorted list (stable insertion). -/
def insertByKey (op : CWriteOp) : List CWriteOp → List CWriteOp
  | [] => [op]
  | x :: xs =>
      if strLe op.key x.key then op :: x :: xs else x :: insertByKey op xs

/-- Sort a write batch by key (stable insertion sort). -/
def sortByKey (ops : List CWriteOp) : List CWriteOp :=
  ops.foldr insertByKey []

theorem cmirror_get_step_put (m : CMirror) (k : String) (v : ChainVal)
    (r : String) :
    (m.step (CWriteOp.Put k v)).get r = if k = r then some v else m.get r := by
  simp only [CMirror.step, CMirror.get, alLookup_alInsert]
  by_cases h : k = r <;> simp [h]

theorem key_cac_ne_con (id : String) :
    keys_contract_account id ≠ keys_contract id := by
  intro h
  have h2 : (keys_contract_account id).data = (keys_contract id).data := by
    rw [h]
  simp [keys_contract_account, keys_contract, String.data_append] at h2

theorem key_con_ne_hgt (id : String) :
    keys_contract id ≠ keys_state_height id := by
  intro h
  have h2 : (keys_contract id).data = (keys_state_height id).data := by rw [h]
  simp [keys_contract, keys_state_height, String.data_append] at h2

theorem key_con_ne_rt (id : String) :
    keys_contract id ≠ keys_state_root id := by
  intro h
  have h2 : (keys_contract id).data = (keys_state_root id).data := by rw [h]
  simp [keys_contract, keys_state_root, String.data_append] at h2

theorem key_cac_ne_hgt (id : String) :
    keys_contract_account id ≠ keys_state_height id := by
  intro h
  have h2 : (keys_contract_account id).data = (keys_state_height id).data := by
    rw [h]
  simp [keys_contract_account, keys_state_height, String.data_append] at h2

theorem key_cac_ne_rt (id : String) :
    keys_contract_account id ≠ keys_state_root id := by
  intro h
  have h2 : (keys_contract_account id).data = (keys_state_root id).data := by
    rw [h]
  simp [keys_contract_account, keys_state_root, String.data_append] at h2

theorem key_hgt_ne_rt (id : String) :
    keys_state_height id ≠ keys_state_root id := by
  intro h
  have h2 : (keys_state_height id).data = (keys_state_root id).data := by rw [h]
  simp [keys_state_height, keys_state_root, String.data_append] at h2

/-- The mirror after the `CON-<id>` and `CAC-<id>` writes of
`create_contract`. -/
def dbAfterConCac (db : CMirror) (id : String) (c : ZkContract) : CMirror :=
  (db.step (CWriteOp.Put (keys_contract id) (.contract c))).step
    (CWriteOp.Put (keys_contract_account id)
      (.account (ContractAccount.mk c.initial_state 1)))

/-- The mirror after all four `create_contract` writes. -/
def dbAfterAll (db : CMirror) (id : String) (c : ZkContract) (d : ZkDataPairs) :
    CMirror :=
  ((dbAfterConCac db id c).step
      (CWriteOp.Put (keys_state_height id) (.num 1))).step
    (CWriteOp.Put (keys_state_root id) (.root (compress c.state_model d)))

theorem dbAfterConCac_get_con (db : CMirror) (id : String) (c : ZkContract) :
    (dbAfterConCac db id c).get (keys_contract id) =
      some (.contract c) := by
  rw [dbAfterConCac, cmirror_get_step_put, cmirror_get_step_put]
  simp [key_cac_ne_con id]

theorem create_contract_unfold_success (isValid : ZkStateModel → Bool)
    (db : CMirror) (id : String) (c : ZkContract) (d : ZkDataPairs)
    (h1 : isValid c.state_model = true) :
    create_contract isValid db id c (some d) =
      if compress c.state_model (as_delta d) ≠ c.initial_state then
        .error .InvalidState
      else .ok (dbAfterAll db id c (as_delta d)) := by
  rw [create_contract]
  rw [h1]
  simp only [Bool.not_true, Bool.false_eq_true, if_false]
  have hupdates : ((db.update
      [CWriteOp.Put (keys_contract id) (.contract c)]).update
      [CWriteOp.Put (keys_contract_account id)
        (.account (ContractAccount.mk c.initial_state 1))]) =
      dbAfterConCac db id c := rfl
  have hsm : state_manager_update (dbAfterConCac db id c) id (as_delta d) 1 =
      .ok (dbAfterAll db id c (as_delta d)) := by
    rw [state_manager_update, dbAfterConCac_get_con]
    rfl
  have hroot : state_manager_root (dbAfterAll db id c (as_delta d)) id =
      .ok (compress c.state_model (as_delta d)) := by
    rw [state_manager_root, dbAfterAll, cmirror_get_step_put]
    simp
  simp only [hupdates, hsm, hroot]

/-- The contract id of `test_create_contract`. -/
def testContractId : String :=
  "0001020304050607080900010203040506070809000102030405060708090001"

/-- The two-scalar struct state model of the test. -/
def testStateModel : ZkStateModel := .Struct [.Scalar, .Scalar]

/-- The declared initial state: `ZkCompressedState::empty` of the model —
the commitment of the empty data set. -/
def testInitialState : Nat := compress testStateModel []

/-- The test contract: two-scalar struct model, empty initial state, empty
function lists. -/
def testContract : ZkContract :=
  ⟨testStateModel, testInitialState, [], [], []⟩

/-- The four writes `test_create_contract` expects, sorted by key. -/
def testExpectedOps : List CWriteOp :=
  [CWriteOp.Put
    "CAC-0001020304050607080900010203040506070809000102030405060708090001"
    (.account (ContractAccount.mk testInitialState 1)),
   CWriteOp.Put
    "CON-0001020304050607080900010203040506070809000102030405060708090001"
    (.contract testContract),
   CWriteOp.Put
    "S-0001020304050607080900010203040506070809000102030405060708090001-HGT"
    (.num 1),
   CWriteOp.Put
    "S-0001020304050607080900010203040506070809000102030405060708090001-RT"
    (.root testInitialState)]

/-- C4. `create_contract` fails with `InvalidStateModel` on an invalid state
model, with `StateNotGiven` when no initial state is supplied, and with
`InvalidState` when the state manager's computed root differs from the
declared initial state; on success it has stored the contract under
`CON-<id>`, a `ContractAccount` with height 1 and `compressed_state` equal
to the declared initial state under `CAC-<id>`, and the installed state
manager entries `S-<id>-HGT = 1` and `S-<id>-RT = initial_state`; and run
inside an isolated mirror on the two-scalar test contract it produces
exactly the four writes `CAC-<id>`, `CON-<id>`, `S-<id>-HGT = 1`,
`S-<id>-RT = initial_state`, in that order after sorting by key. -/
theorem create_contract_correct (isValid : ZkStateModel → Bool) (db : CMirror)
    (id : String) (c : ZkContract) (st : Option ZkDataPairs) :
    (isValid c.state_model = false →
      create_contract isValid db id c st = .error .InvalidStateModel) ∧
    (isValid c.state_model = true → st = none →
      create_contract isValid db id c st = .error .StateNotGiven) ∧
    (∀ d, isValid c.state_model = true → st = some d →
      compress c.state_model (as_delta d) ≠ c.initial_state →
      create_contract isValid db id c st = .error .InvalidState) ∧
    (∀ d db2, isValid c.state_model = true → st = some d →
      compress c.state_model (as_delta d) = c.initial_state →
      create_contract isValid db id c st = .ok db2 →
      db2.get (keys_contract id) = some (.contract c) ∧
      db2.get (keys_contract_account id) =
        some (.account (ContractAccount.mk c.initial_state 1)) ∧
      db2.get (keys_state_height id) = some (.num 1) ∧
      db2.get (keys_state_root id) = some (.root c.initial_state)) ∧
    (Except.map (fun pr => sortByKey pr.1)
        (isolated [] (fun ch =>
          create_contract (fun _ => true) ch testContractId testContract
            (some []))) = .ok testExpectedOps) := by
  refine ⟨?_, ?_, ?_, ?_, ?_⟩
  · intro hval
    rw [create_contract, hval]
    rfl
  · intro hval hst
    subst hst
    rw [create_contract, hval]
    rfl
  · intro d hval hst hne
    subst hst
    rw [create_contract_unfold_success isValid db id c d hval, if_pos hne]
  · intro d db2 hval hst hroot hok
    subst hst
    rw [create_contract_unfold_success isValid db id c d hval,
      if_neg (by simp [hroot])] at hok
    injection hok with hok
    subst hok
    refine ⟨?_, ?_, ?_, ?_⟩
    · rw [dbAfterAll, cmirror_get_step_put,
        if_neg (Ne.symm (key_con_ne_rt id)), cmirror_get_step_put,
        if_neg (Ne.symm (key_con_ne_hgt id)), dbAfterConCac_get_con]
    · rw [dbAfterAll, cmirror_get_step_put,
        if_neg (Ne.symm (key_cac_ne_rt id)), cmirror_get_step_put,
        if_neg (Ne.symm (key_cac_ne_hgt id)), dbAfterConCac,
        cmirror_get_step_put, if_pos rfl]
    · rw [dbAfterAll, cmirror_get_step_put,
        if_neg (Ne.symm (key_hgt_ne_rt id)), cmirror_get_step_put, if_pos rfl]
    · rw [dbAfterAll, cmirror_get_step_put, if_pos rfl, hroot]
  · rfl

/-- Witness for `create_contract_correct`: the invalid-model and wrong-root
failure branches discharged at the concrete test contract. -/
theorem create_contract_correct_witness :
    ((fun _ => false : ZkStateModel → Bool) testContract.state_model = false ∧
      create_contract (fun _ => false) (CMirror.mk [] []) testContractId
        testContract (some []) = .error .InvalidStateModel) ∧
    ((fun _ => true : ZkStateModel → Bool) testContract.state_model = true ∧
      create_contract (fun _ => true) (CMirror.mk [] []) testContractId
        testContract none = .error .StateNotGiven) ∧
    (compress ZkStateModel.Scalar (as_delta []) ≠
        (ZkContract.mk ZkStateModel.Scalar
          (compress ZkStateModel.Scalar [] + 1) [] [] []).initial_state ∧
      create_contract (fun _ => true) (CMirror.mk [] []) testContractId
        (ZkContract.mk ZkStateModel.Scalar
          (compress ZkStateModel.Scalar [] + 1) [] [] [])
        (some []) = .error .InvalidState) := by
  refine ⟨⟨rfl, ?_⟩, ⟨rfl, ?_⟩, ⟨by decide, ?_⟩⟩
  · exact (create_contract_correct (fun _ => false) (CMirror.mk [] [])
      testContractId testContract (some [])).1 rfl
  · exact (create_contract_correct (fun _ => true) (CMirror.mk [] [])
      testContractId testContract none).2.1 rfl rfl
  · exact (create_contract_correct (fun _ => true) (CMirror.mk [] [])
      testContractId
      (ZkContract.mk ZkStateModel.Scalar
        (compress ZkStateModel.Scalar [] + 1) [] [] [])
      (some [])).2.2.1 [] rfl rfl (by decide)

end Bazuka
